import Mathlib

/-!
Verification of the `mmcmap` persistent copy-on-write HAMT engine
(repository `sirgallo/mmcmap`), byte-prefix variant.

The embedding models the canonical byte-prefix trie variant of the engine:

* `MMCMapINode` / `MMCMapLNode` mirror the node types of `MMCMapTypes.go`
  (the serialization-only fields `StartOffset` / `EndOffset` are dropped:
  the model treats the mmap round trip `WriteINodeToMemMap` /
  `ReadINodeFromMemMap` as the identity on trees, which is the intended
  contract of the codec).  The 8 x u32 bitmap is modelled as a single
  256-bit natural number.
* `putRecursive`, `getRecursive`, `deleteRecursive`, `Range` and the
  positional `Range` variant are transcribed from the operations file
  (src/unnamed/part_002) and from `src/Range.go`.
* `exclusiveWriteMmap`, `determineIfResize` and the resize schedule are
  transcribed from the IO-utils file (src/unnamed/part_013).
* The node readers `ReadINodeFromMemMap` / `ReadLNodeFromMemMap` are
  transcribed from the node operations file (src/unnamed/part_015),
  with the Go `recover()` of a slice-bounds panic modelled as an
  explicit error result.

All state is modelled sequentially: a single mutator runs to completion,
so every pointer compare-and-swap in the path-copy machinery succeeds and
`exclusiveWriteMmap` is the only publication point.
-/

set_option maxRecDepth 100000
set_option linter.unusedVariables false

/-- Leaf node of the byte-prefix trie (`MMCMapLNode` in `MMCMapTypes.go`).
`Key` and `Value` are byte slices, modelled as lists of naturals. -/
structure MMCMapLNode where
  Version : Nat
  Key : List Nat
  Value : List Nat
deriving Repr, DecidableEq

/-- Internal node of the byte-prefix trie (`MMCMapINode` in `MMCMapTypes.go`).
The Go `Bitmap [8]uint32` (256 branch slots) is modelled as one natural
number holding the 256-bit quantity; `Leaf` is the attached leaf whose key
terminates at this node's level; `Children` is the dense child array. -/
inductive MMCMapINode where
  | mk (Version : Nat) (Bitmap : Nat) (Leaf : MMCMapLNode) (Children : List MMCMapINode)
deriving Repr

/-- Field accessor for `MMCMapINode.Version`. -/
def MMCMapINode.Version : MMCMapINode → Nat
  | .mk v _ _ _ => v

/-- Field accessor for `MMCMapINode.Bitmap`. -/
def MMCMapINode.Bitmap : MMCMapINode → Nat
  | .mk _ b _ _ => b

/-- Field accessor for `MMCMapINode.Leaf`. -/
def MMCMapINode.Leaf : MMCMapINode → MMCMapLNode
  | .mk _ _ l _ => l

/-- Field accessor for `MMCMapINode.Children`. -/
def MMCMapINode.Children : MMCMapINode → List MMCMapINode
  | .mk _ _ _ c => c

/-- Result triple of `Get` / `Range` (`KeyValuePair` in `MMCMapTypes.go`). -/
structure KeyValuePair where
  Version : Nat
  Key : List Nat
  Value : List Nat
deriving Repr, DecidableEq

/-- 1 GB resize threshold (`MaxResize` in `MMCMapTypes.go`). -/
def MaxResize : Nat := 1000000000

/-- Offset of the first root node in a fresh file (`InitRootOffset`). -/
def InitRootOffset : Nat := 24

/-- Byte offset of the `EndOffset` field inside a serialized node
(`NodeEndOffsetIdx` in `MMCMapTypes.go`). -/
def NodeEndOffsetIdx : Nat := 16

/-- Width in bytes of a serialized u64 (`OffsetSize` in `MMCMapTypes.go`). -/
def OffsetSize : Nat := 8

/-- Byte offset of the child-offset array inside a serialized internal node
(`NodeChildrenIdx` in `MMCMapTypes.go`). -/
def NodeChildrenIdx : Nat := 64

/-- Byte offset of the key inside a serialized leaf node
(`NodeKeyIdx` in `MMCMapTypes.go`). -/
def NodeKeyIdx : Nat := 26

/-- Modelled from the spec: the missing byte-prefix bitmap utility summing
`bits.OnesCount32` over the 8 bitmap words; on the single 256-bit quantity
this is the number of set bits among positions 0..255 (spec section 4.D;
the 32-bit analogue `CalculateHammingWeight` is in `src/Utils.go`). -/
def calculateHammingWeight (bitmap : Nat) : Nat :=
  (List.range 256).countP (fun i => bitmap.testBit i)

/-- Modelled from the spec: the missing byte-prefix `IsBitSet` testing one of
the 256 bitmap bits (spec section 4.D `bit_set(idx)`; 32-bit analogue in
`src/Utils.go`). -/
def IsBitSet (bitmap : Nat) (position : Nat) : Bool :=
  bitmap.testBit position

/-- Modelled from the spec: the missing byte-prefix `SetBit`.  The 32-bit
`SetBit` in `src/Utils.go` is an xor with the single-bit mask (it flips the
bit), and the byte-prefix delete path relies on exactly this flip to clear a
set bit, so the model is the xor. -/
def SetBit (bitmap : Nat) (position : Nat) : Nat :=
  bitmap ^^^ (2 ^ position)

/-- Modelled from the spec: the missing byte-prefix `getPosition`; the dense
child-array position of branch `index` is the popcount of the bitmap bits
strictly below `index` (spec section 4.D: `popcount(bitmap & ((1<<idx)-1))`
over the full 256-bit quantity). -/
def getPosition (bitMap : Nat) (index : Nat) : Nat :=
  calculateHammingWeight (bitMap % 2 ^ index)

/-- Modelled from the spec: the missing byte-prefix `getIndexForLevel`; at
level L the branch index for key K is the byte `K[L]` (spec section 4.D).
Out-of-range levels (which would panic in Go and are unreachable from the
entry points) default to 0. -/
def getIndexForLevel (key : List Nat) (level : Nat) : Nat :=
  key.getD level 0

/-- Modelled from the spec: the missing byte-prefix `extendTable`; returns the
dense child array with `newNode` inserted at position `pos` (spec section
4.D `Expand`); the bitmap argument only determines the new length in Go. -/
def extendTable (orig : List MMCMapINode) (bitMap : Nat) (pos : Nat)
    (newNode : MMCMapINode) : List MMCMapINode :=
  orig.take pos ++ newNode :: orig.drop pos

/-- Modelled from the spec: the missing byte-prefix `shrinkTable`; returns the
dense child array with the element at position `pos` removed (spec section
4.D `Shrink`). -/
def shrinkTable (orig : List MMCMapINode) (bitMap : Nat) (pos : Nat) :
    List MMCMapINode :=
  orig.take pos ++ orig.drop (pos + 1)

/-- Embeds `newInternalNode` from the node operations file: a fresh internal node
from the pool carries the given version, an empty bitmap, no children and a
zeroed leaf. -/
def newInternalNode (version : Nat) : MMCMapINode :=
  .mk version 0 ⟨0, [], []⟩ []

/-- Embeds `newLeafNode` from the node operations file: a fresh leaf with the given
key, value and version (`KeyLength` is implicit in the model). -/
def newLeafNode (key value : List Nat) (version : Nat) : MMCMapLNode :=
  ⟨version, key, value⟩

/-- Recursion worker for `putRecursive`.  The Go function recurses on the
`level` counter until `len(key) == level`; the worker makes that measure
structural by also carrying `rem = key[level:]`, the part of the key not yet
consumed.  All tests and index computations are the ones of the source,
phrased on `key` and `level`. -/
def putRecursiveWork (node : MMCMapINode) (key value : List Nat)
    (rem : List Nat) (level : Nat) : MMCMapINode :=
  match rem with
  | [] =>
    if node.Leaf.Key ≠ [] ∧ node.Leaf.Key = key then
      if node.Leaf.Value ≠ value then
        .mk node.Version node.Bitmap ⟨node.Version, node.Leaf.Key, value⟩ node.Children
      else
        .mk node.Version node.Bitmap ⟨node.Version, node.Leaf.Key, node.Leaf.Value⟩ node.Children
    else
      .mk node.Version node.Bitmap (newLeafNode key value node.Version) node.Children
  | _ :: rest =>
    let index := getIndexForLevel key level
    let pos := getPosition node.Bitmap index
    if ¬ IsBitSet node.Bitmap index then
      let updated := putRecursiveWork (newInternalNode node.Version) key value rest (level + 1)
      .mk node.Version (SetBit node.Bitmap index)
        ⟨node.Version, node.Leaf.Key, node.Leaf.Value⟩
        (extendTable node.Children (SetBit node.Bitmap index) pos updated)
    else
      let childNode := node.Children.getD pos (newInternalNode 0)
      let updated := putRecursiveWork
        (.mk node.Version childNode.Bitmap childNode.Leaf childNode.Children)
        key value rest (level + 1)
      .mk node.Version node.Bitmap ⟨node.Version, node.Leaf.Key, node.Leaf.Value⟩
        (node.Children.set pos updated)

/-- Embeds `putRecursive` from the operations file (src/unnamed/part_002): path-copy
insertion of `key ↦ value` below `node` at `level`.  Each copied node keeps
its (already bumped) version, stamps its leaf with that version, and either
replaces the attached leaf at depth `len(key)`, creates a fresh branch, or
descends into the copied child.  In the sequential model the final pointer
compare-and-swap always succeeds, so the function returns the new node. -/
def putRecursive (node : MMCMapINode) (key value : List Nat) (level : Nat) :
    MMCMapINode :=
  putRecursiveWork node key value (key.drop level) level

/-- Recursion worker for `getRecursive`, structural on `rem = key[level:]`. -/
def getRecursiveWork (node : MMCMapINode) (key : List Nat)
    (rem : List Nat) (level : Nat) : Option KeyValuePair :=
  match rem with
  | [] =>
    if node.Leaf.Key ≠ [] ∧ key = node.Leaf.Key then
      some ⟨node.Leaf.Version, node.Leaf.Key, node.Leaf.Value⟩
    else none
  | _ :: rest =>
    let index := getIndexForLevel key level
    if ¬ IsBitSet node.Bitmap index then none
    else
      let pos := getPosition node.Bitmap index
      getRecursiveWork (node.Children.getD pos (newInternalNode 0)) key rest (level + 1)

/-- Embeds `getRecursive` from the operations file (src/unnamed/part_002): descends
by the byte index `key[level]` at each level and reads the attached leaf at
depth `len(key)`; an unset branch bit or an empty-keyed attachment yields
`none`.  Reading the child node from the memory map is the identity in the
model. -/
def getRecursive (node : MMCMapINode) (key : List Nat) (level : Nat) :
    Option KeyValuePair :=
  getRecursiveWork node key (key.drop level) level

/-- Recursion worker for `deleteRecursive`, structural on `rem = key[level:]`. -/
def deleteRecursiveWork (node : MMCMapINode) (key : List Nat)
    (rem : List Nat) (level : Nat) : MMCMapINode :=
  match rem with
  | [] =>
    if node.Leaf.Key ≠ [] ∧ node.Leaf.Key = key then
      .mk node.Version node.Bitmap (newLeafNode [] [] node.Version) node.Children
    else node
  | _ :: rest =>
    let index := getIndexForLevel key level
    if ¬ IsBitSet node.Bitmap index then node
    else
      let pos := getPosition node.Bitmap index
      let childNode := node.Children.getD pos (newInternalNode 0)
      let updatedChildNode := deleteRecursiveWork
        (.mk node.Version childNode.Bitmap childNode.Leaf childNode.Children)
        key rest (level + 1)
      let children2 := node.Children.set pos updatedChildNode
      if updatedChildNode.Leaf.Version = node.Version ∧
          calculateHammingWeight updatedChildNode.Bitmap = 0 then
        .mk node.Version (SetBit node.Bitmap index) node.Leaf
          (shrinkTable children2 (SetBit node.Bitmap index) pos)
      else
        .mk node.Version node.Bitmap node.Leaf children2
  termination_by structural rem

/-- Embeds `deleteRecursive` from the operations file (src/unnamed/part_002): at
depth `len(key)` a matching attached leaf is replaced by the empty-key
empty-value tombstone; an unset branch bit returns the node unchanged (the
version-bumped copy of the path is still handed back to the caller); after
the recursive call the child is re-installed, and if the child's leaf was
just stamped with the current version and its bitmap became empty, this
level's bit is flipped off and the child array is shrunk. -/
def deleteRecursive (node : MMCMapINode) (key : List Nat) (level : Nat) :
    MMCMapINode :=
  deleteRecursiveWork node key (key.drop level) level

mutual

/-- Well-formedness of a trie node: the dense child array has exactly
`popcount(bitmap)` entries, hereditarily.  This is the structural invariant
which the codec checks on deserialization (spec section 4.C). -/
def wfB (node : MMCMapINode) : Bool :=
  match node with
  | .mk _ b _ ch => (ch.length == calculateHammingWeight b) && wfBList ch

/-- List form of `wfB` over a child array. -/
def wfBList : List MMCMapINode → Bool
  | [] => true
  | c :: cs => wfB c && wfBList cs

end

/-- The empty version-0 root written by `initRoot` on a fresh file. -/
def initRootNode : MMCMapINode :=
  .mk 0 0 ⟨0, [], []⟩ []

deriving instance DecidableEq for Except

/-- Error kinds surfaced by the range entry points: the explicit
`errors.New("start key is larger than end key")` guard of `src/Range.go`,
and the Go runtime panic raised by an out-of-range child-array index or
slice expression (`Range` has no `recover`, so in Go this aborts). -/
inductive GoError where
  | invalidArgument
  | indexOutOfRange
deriving Repr, DecidableEq

/-- Go `bytes.Compare`: lexicographic byte-slice comparison returning
-1, 0 or 1. -/
def bytesCompare : List Nat → List Nat → Int
  | [], [] => 0
  | [], _ :: _ => -1
  | _ :: _, [] => 1
  | x :: xs, y :: ys =>
    if x < y then -1 else if y < x then 1 else bytesCompare xs ys

/-- The `switch` at the head of `rangeRecursive` in `src/Range.go`: decides,
from the optional bounds and the level, whether to return early with no
results (`Sum.inl`), or to continue (`Sum.inr`) with the pairs emitted at
this node and the child positions `startKeyPos` / `endKeyPos` to scan. -/
def rangeHeader (bitmap : Nat) (leaf : MMCMapLNode) (nChildren : Nat)
    (minVersion : Nat) (startKey endKey : Option (List Nat)) (level : Nat) :
    List KeyValuePair ⊕ (List KeyValuePair × Nat × Nat) :=
  let kvPair : KeyValuePair := ⟨leaf.Version, leaf.Key, leaf.Value⟩
  if level > 0 then
    if startKey.isSome ∧ (startKey.getD []).length > level then
      if leaf.Version ≥ minVersion ∧ bytesCompare leaf.Key (startKey.getD []) = 1 then
        .inr ([kvPair], getPosition bitmap (getIndexForLevel (startKey.getD []) 0), nChildren)
      else .inl []
    else if endKey.isSome ∧ (endKey.getD []).length > level then
      if leaf.Version ≥ minVersion ∧ bytesCompare leaf.Key (endKey.getD []) = -1 then
        .inr ([kvPair], 0, getPosition bitmap (getIndexForLevel (endKey.getD []) 0))
      else .inl []
    else
      .inr (if leaf.Version ≥ minVersion ∧ leaf.Key ≠ [] then [kvPair] else [],
        0, nChildren)
  else
    .inr ([], getPosition bitmap (getIndexForLevel (startKey.getD []) 0),
      getPosition bitmap (getIndexForLevel (endKey.getD []) 0))

mutual

/-- Embeds `rangeRecursive` from `src/Range.go`: bounded depth-first scan.  The head
switch is `rangeHeader`; then, when the two positions agree, the single
child at that position is scanned with both bounds (an out-of-range
position is the Go panic), otherwise the child slice
`Children[startKeyPos:endKeyPos]` is scanned, handing the start bound to
the first child, the end bound to the child whose slice-relative index
equals `endKeyPos` (as in the source), and no bounds to the rest.
Go's slice expression panics unless `startKeyPos ≤ endKeyPos ≤ len`. -/
def rangeRecursive (node : MMCMapINode) (minVersion : Nat)
    (startKey endKey : Option (List Nat)) (level : Nat) :
    Except GoError (List KeyValuePair) :=
  match node with
  | .mk version bitmap leaf children =>
    match rangeHeader bitmap leaf children.length minVersion startKey endKey level with
    | .inl early => .ok early
    | .inr (pairs0, startKeyPos, endKeyPos) =>
      if children.length > 0 then
        if startKeyPos = endKeyPos then
          match rangeAt children startKeyPos minVersion startKey endKey level with
          | .error e => .error e
          | .ok kvPairs => .ok (pairs0 ++ kvPairs)
        else
          if startKeyPos ≤ endKeyPos ∧ endKeyPos ≤ children.length then
            match rangeChildrenLoop children 0 startKeyPos endKeyPos minVersion
                startKey endKey level with
            | .error e => .error e
            | .ok kvs => .ok (pairs0 ++ kvs)
          else .error .indexOutOfRange
      else .ok pairs0

/-- Scan of the single boundary child `Children[startKeyPos]` in
`rangeRecursive` (`startKeyPos == endKeyPos` case); walking off the end of
the array is the Go index panic. -/
def rangeAt (cs : List MMCMapINode) (k : Nat) (minVersion : Nat)
    (startKey endKey : Option (List Nat)) (level : Nat) :
    Except GoError (List KeyValuePair) :=
  match cs, k with
  | [], _ => .error .indexOutOfRange
  | c :: _, 0 => rangeRecursive c minVersion startKey endKey (level + 1)
  | _ :: rest, k + 1 => rangeAt rest k minVersion startKey endKey level

/-- The `for idx, childOffset := range Children[startKeyPos:endKeyPos]` loop
of `rangeRecursive`, walking the full child list with the absolute counter
`j` and processing exactly the slice positions; `idx` is the slice-relative
index used by the source to choose which bounds to pass down. -/
def rangeChildrenLoop (cs : List MMCMapINode) (j startKeyPos endKeyPos : Nat)
    (minVersion : Nat) (startKey endKey : Option (List Nat)) (level : Nat) :
    Except GoError (List KeyValuePair) :=
  match cs with
  | [] => .ok []
  | c :: rest =>
    if startKeyPos ≤ j ∧ j < endKeyPos then
      let idx := j - startKeyPos
      let res :=
        if idx = 0 ∧ startKey.isSome then
          rangeRecursive c minVersion startKey none (level + 1)
        else if idx = endKeyPos ∧ endKey.isSome then
          rangeRecursive c minVersion none endKey (level + 1)
        else
          rangeRecursive c minVersion none none (level + 1)
      match res with
      | .error e => .error e
      | .ok kvPairs =>
        match rangeChildrenLoop rest (j + 1) startKeyPos endKeyPos minVersion
            startKey endKey level with
        | .error e => .error e
        | .ok more => .ok (kvPairs ++ more)
    else rangeChildrenLoop rest (j + 1) startKeyPos endKeyPos minVersion
      startKey endKey level

end

mutual

/-- Embeds `rangeRecursive` from the operations file (src/unnamed/part_002), the
positional variant: emits the attached leaf when the level is nonzero, the
leaf key is nonempty and its version passes the filter, then recursively
scans `Children[startKeyIdx:endKeyIdx]`, each child scanned over its whole
child array.  Go's slice expression panics unless
`startKeyIdx ≤ endKeyIdx ≤ len`. -/
def rangeRecursivePositional (node : MMCMapINode) (minVersion : Nat)
    (startKeyIdx endKeyIdx : Nat) (level : Nat) :
    Except GoError (List KeyValuePair) :=
  match node with
  | .mk version bitmap leaf children =>
    let pairs0 : List KeyValuePair :=
      if level ≠ 0 ∧ leaf.Key ≠ [] ∧ leaf.Version ≥ minVersion then
        [⟨leaf.Version, leaf.Key, leaf.Value⟩]
      else []
    if startKeyIdx ≤ endKeyIdx ∧ endKeyIdx ≤ children.length then
      match rangePositionalLoop children 0 startKeyIdx endKeyIdx minVersion level with
      | .error e => .error e
      | .ok kvs => .ok (pairs0 ++ kvs)
    else .error .indexOutOfRange

/-- The child loop of the positional `rangeRecursive`, walking the full child
list with the absolute counter `j` and processing the slice positions. -/
def rangePositionalLoop (cs : List MMCMapINode) (j startKeyIdx endKeyIdx : Nat)
    (minVersion : Nat) (level : Nat) : Except GoError (List KeyValuePair) :=
  match cs with
  | [] => .ok []
  | c :: rest =>
    if startKeyIdx ≤ j ∧ j < endKeyIdx then
      match rangeRecursivePositional c minVersion 0 c.Children.length (level + 1) with
      | .error e => .error e
      | .ok kvPairs =>
        match rangePositionalLoop rest (j + 1) startKeyIdx endKeyIdx minVersion level with
        | .error e => .error e
        | .ok more => .ok (kvPairs ++ more)
    else rangePositionalLoop rest (j + 1) startKeyIdx endKeyIdx minVersion level

end

/-- Meta block at offset 0 of the mapped file (`MMCMapMetaData` in
`MMCMapTypes.go`): version, root offset, and the next free append offset. -/
structure MMCMapMetaData where
  Version : Nat
  RootOffset : Nat
  NextStartOffset : Nat
deriving Repr, DecidableEq

/-- Sequential model of an open map: the current meta triple, the tree
reachable from `meta.RootOffset` (the mmap round trip of the codec is the
identity on trees), and the current mapped length. -/
structure MMCMap where
  meta : MMCMapMetaData
  root : MMCMapINode
  mappedLen : Nat

/-- Modulus of Go's `uint64` arithmetic. -/
def u64Mod : Nat := 2 ^ 64

mutual

/-- Modelled from the spec: the byte count produced by the missing
byte-prefix `SerializePathToMemMap`; every node of the new path contributes
its fixed internal-node header plus one 8-byte slot per child plus its
attached leaf (layout of spec section 4.C), and only children stamped with
the path's version are serialized recursively — unchanged siblings are
emitted as their pre-existing offsets (spec section 4.E step 5). -/
def serializedPathSize (node : MMCMapINode) (version : Nat) : Nat :=
  match node with
  | .mk _ _ leaf ch =>
    NodeChildrenIdx + 8 * ch.length + (NodeKeyIdx + leaf.Key.length + leaf.Value.length) +
      serializedChildrenSize ch version

/-- Child part of `serializedPathSize`. -/
def serializedChildrenSize : List MMCMapINode → Nat → Nat
  | [], _ => 0
  | c :: cs, version =>
    (if c.Version = version then serializedPathSize c version else 0) +
      serializedChildrenSize cs version

end

/-- Embeds `determineIfResize` from the IO-utils file (src/unnamed/part_013): a
projected end offset inside the mapped region needs no resize; otherwise
the resize worker is signalled (or its flag is already set) and the caller
must back off and retry. -/
def determineIfResize (mappedLen : Nat) (offset : Nat) : Bool :=
  if offset > 0 ∧ offset < mappedLen then false else true

/-- The four stores a successful publication performs on the mapped region,
in `exclusiveWriteMmap` (src/unnamed/part_013). -/
inductive WriteEvent where
  | casVersion
  | storeEndOffset
  | writeNodeBytes
  | storeRootOffset
deriving Repr, DecidableEq

/-- Embeds `exclusiveWriteMmap` from the IO-utils file (src/unnamed/part_013),
sequential model: loads the meta triple, serializes the path at the current
end offset, and unless a resize is needed publishes with a version
compare-and-swap guarded by `version == newVersion - 1` (64-bit
arithmetic).  On success it returns the updated state together with the
ordered list of stores it performed: the version CAS, then the end-offset
store, then the node bytes, then the root-offset store. -/
def exclusiveWriteMmap (st : MMCMap) (path : MMCMapINode) :
    MMCMap × Bool × List WriteEvent :=
  let version := st.meta.Version
  let endOffset := st.meta.NextStartOffset
  let newVersion := path.Version % u64Mod
  let newOffsetInMMap := endOffset
  let serializedPath := serializedPathSize path path.Version
  let updatedMeta : MMCMapMetaData :=
    ⟨newVersion, newOffsetInMMap, (newOffsetInMMap + serializedPath) % u64Mod⟩
  if determineIfResize st.mappedLen updatedMeta.NextStartOffset then
    (st, false, [])
  else if version = (newVersion + u64Mod - 1) % u64Mod then
    ({ st with meta := updatedMeta, root := path }, true,
      [.casVersion, .storeEndOffset, .writeNodeBytes, .storeRootOffset])
  else (st, false, [])

/-- Embeds `Put` from the operations file (src/unnamed/part_002), sequential model
of one successful iteration of the retry loop: bump the version of the root
copy, path-copy with `putRecursive`, and publish through
`exclusiveWriteMmap`. -/
def MMCMap.Put (st : MMCMap) (key value : List Nat) :
    MMCMap × Bool × List WriteEvent :=
  let currRoot := MMCMapINode.mk ((st.root.Version + 1) % u64Mod)
    st.root.Bitmap st.root.Leaf st.root.Children
  exclusiveWriteMmap st (putRecursive currRoot key value 0)

/-- Embeds `Get` from the operations file (src/unnamed/part_002): read the root at
the published root offset and descend. -/
def MMCMap.Get (st : MMCMap) (key : List Nat) : Option KeyValuePair :=
  getRecursive st.root key 0

/-- Embeds `Delete` from the operations file (src/unnamed/part_002), sequential
model of one iteration of the retry loop: bump the version of the root
copy, path-copy with `deleteRecursive`, and publish through
`exclusiveWriteMmap` (the publication is attempted whether or not the key
was found). -/
def MMCMap.Delete (st : MMCMap) (key : List Nat) :
    MMCMap × Bool × List WriteEvent :=
  let currRoot := MMCMapINode.mk ((st.root.Version + 1) % u64Mod)
    st.root.Bitmap st.root.Leaf st.root.Children
  exclusiveWriteMmap st (deleteRecursive currRoot key 0)

/-- Embeds `Range` from `src/Range.go`: rejects `startKey > endKey` with the
invalid-argument error, otherwise scans from the current root with the
bounds-directed `rangeRecursive` (a missing `minVersion` means 0). -/
def MMCMap.Range (st : MMCMap) (startKey endKey : List Nat)
    (minVersion : Option Nat) : Except GoError (List KeyValuePair) :=
  if bytesCompare startKey endKey = 1 then .error .invalidArgument
  else
    rangeRecursive st.root (minVersion.getD 0) (some startKey) (some endKey) 0

/-- Embeds `Range` from the operations file (src/unnamed/part_002), the positional
variant: computes the root child positions of the two first key bytes and
scans that child slice with the positional `rangeRecursive`; there is no
bounds-order guard in this variant. -/
def MMCMap.RangeByPosition (st : MMCMap) (startKey endKey : List Nat)
    (minVersion : Option Nat) : Except GoError (List KeyValuePair) :=
  let minV := minVersion.getD 0
  let startKeyPos := getPosition st.root.Bitmap (getIndexForLevel startKey 0)
  let endKeyPos := getPosition st.root.Bitmap (getIndexForLevel endKey 0)
  rangeRecursivePositional st.root minV startKeyPos endKeyPos 0

/-- Embeds `allocateSize` inside `resizeMmap` (src/unnamed/part_013): the growth
schedule for the mapped file.  An empty mapping gets `pageSize * 16 * 1000`
bytes; a mapping of at least `MaxResize` (1 GB decimal) grows by
`MaxResize`; anything else doubles. -/
def allocateSize (mMapLen : Nat) (pageSize : Nat) : Nat :=
  if mMapLen = 0 then pageSize * 16 * 1000
  else if mMapLen ≥ MaxResize then mMapLen + MaxResize
  else mMapLen * 2

/-- Go slice expression `mMap[low:high]` over the mapped byte region: defined
when `low ≤ high ≤ len`, otherwise it raises the runtime bounds panic
(`none`), which the node readers catch with `recover`. -/
def goSlice (mMap : List Nat) (low high : Nat) : Option (List Nat) :=
  if low ≤ high ∧ high ≤ mMap.length then
    some ((mMap.drop low).take (high - low))
  else none

/-- Little-endian byte decoding (`binary.LittleEndian` in
`MMCMapSerialize.go`): byte 0 is least significant. -/
def deserializeLittleEndian (data : List Nat) : Nat :=
  data.foldr (fun b acc => acc * 256 + b) 0

/-- Embeds `deserializeUint64` from `MMCMapSerialize.go`: requires exactly 8 bytes. -/
def deserializeUint64 (data : List Nat) : Except String Nat :=
  if data.length = 8 then .ok (deserializeLittleEndian data)
  else .error ("invalid data length for byte slice to uint64")

/-- The error message produced by the `recover` blocks of the node readers
(src/unnamed/part_015). -/
def readNodeErr : String := "error reading node from mem map"

/-- Modelled from the spec: the missing byte-prefix `DeserializeLNode`, from
the leaf layout of spec section 4.C: version at 0, offsets at 8 and 16,
2-byte key length at 24, key at 26, value up to the end of the slice.  A
slice too short for the fixed header or the declared key would panic in Go
inside the reader's `recover`, hence the error result. -/
def DeserializeLNode (snode : List Nat) : Except String MMCMapLNode :=
  if snode.length < NodeKeyIdx then .error readNodeErr
  else
    let version := deserializeLittleEndian (snode.take 8)
    let keyLength := deserializeLittleEndian ((snode.drop 24).take 2)
    if snode.length < NodeKeyIdx + keyLength then .error readNodeErr
    else
      .ok ⟨version, (snode.drop NodeKeyIdx).take keyLength,
        snode.drop (NodeKeyIdx + keyLength)⟩

/-- On-disk form of an internal node as materialized by the readers: header
fields, the 256-bit bitmap, the attached-leaf offset, the child offsets,
and (after the leaf read) the attached leaf. -/
structure MMCMapINodeDisk where
  Version : Nat
  StartOffset : Nat
  EndOffset : Nat
  Bitmap : Nat
  LeafOffset : Nat
  ChildOffsets : List Nat
  Leaf : MMCMapLNode
deriving Repr, DecidableEq

/-- Modelled from the spec: the missing byte-prefix `DeserializeINode`, from
the internal-node layout of spec section 4.C: version / start / end at
0, 8, 16, the 8 x u32 bitmap at 24 (little-endian bytes, equal to the
256-bit quantity), the leaf offset at 56, and `popcount(bitmap)` child
offsets of 8 bytes each from 64.  A slice too short for the header or the
child array would panic in Go inside the reader's `recover`. -/
def DeserializeINode (snode : List Nat) : Except String MMCMapINodeDisk :=
  if snode.length < NodeChildrenIdx then .error readNodeErr
  else
    let version := deserializeLittleEndian (snode.take 8)
    let startOffset := deserializeLittleEndian ((snode.drop 8).take 8)
    let endOffset := deserializeLittleEndian ((snode.drop 16).take 8)
    let bitmap := deserializeLittleEndian ((snode.drop 24).take 32)
    let leafOffset := deserializeLittleEndian ((snode.drop 56).take 8)
    let totalChildren := calculateHammingWeight bitmap
    if snode.length < NodeChildrenIdx + 8 * totalChildren then .error readNodeErr
    else
      .ok ⟨version, startOffset, endOffset, bitmap, leafOffset,
        (List.range totalChildren).map
          (fun k => deserializeLittleEndian ((snode.drop (NodeChildrenIdx + 8 * k)).take 8)),
        ⟨0, [], []⟩⟩

/-- Embeds `ReadLNodeFromMemMap` from the node operations file (src/unnamed/
part_015): slice the 8-byte `EndOffset` field at `startOffset + 16`, decode
it, slice the node body `mMap[startOffset : endOffset + 1]`, and decode the
leaf; any slice-bounds panic is caught by the deferred `recover` and
surfaced as an error value. -/
def ReadLNodeFromMemMap (mMap : List Nat) (startOffset : Nat) :
    Except String MMCMapLNode :=
  match goSlice mMap (startOffset + NodeEndOffsetIdx)
      (startOffset + NodeEndOffsetIdx + OffsetSize) with
  | none => .error readNodeErr
  | some sEndOffset =>
    match deserializeUint64 sEndOffset with
    | .error e => .error e
    | .ok endOffset =>
      match goSlice mMap startOffset (endOffset + 1) with
      | none => .error readNodeErr
      | some sNode => DeserializeLNode sNode

/-- Embeds `ReadINodeFromMemMap` from the node operations file (src/unnamed/
part_015): like the leaf reader but decoding an internal node, then also
materializing the attached leaf from the decoded leaf offset; all
slice-bounds panics are caught by the deferred `recover` and surfaced as
error values. -/
def ReadINodeFromMemMap (mMap : List Nat) (startOffset : Nat) :
    Except String MMCMapINodeDisk :=
  match goSlice mMap (startOffset + NodeEndOffsetIdx)
      (startOffset + NodeEndOffsetIdx + OffsetSize) with
  | none => .error readNodeErr
  | some sEndOffset =>
    match deserializeUint64 sEndOffset with
    | .error e => .error e
    | .ok endOffset =>
      match goSlice mMap startOffset (endOffset + 1) with
      | none => .error readNodeErr
      | some sNode =>
        match DeserializeINode sNode with
        | .error e => .error e
        | .ok node =>
          match ReadLNodeFromMemMap mMap node.LeafOffset with
          | .error e => .error e
          | .ok leaf => .ok { node with Leaf := leaf }

/-- A fresh open map as initialized by `Open` / `initializeFile`: version 0,
root at `InitRootOffset`, end offset just past the serialized empty root
(64-byte internal-node header + 26-byte empty leaf appended at 24), and
the initial 64 MB-class mapping with 4 KiB pages. -/
def exampleState : MMCMap :=
  ⟨⟨0, InitRootOffset, 114⟩, initRootNode, 65536000⟩

mutual

/-- All attached leaves of a subtree, in preorder: the node's own attached
leaf followed by the leaves of its children. -/
def leavesOf (node : MMCMapINode) : List MMCMapLNode :=
  match node with
  | .mk _ _ leaf ch => leaf :: leavesOfList ch

/-- List form of `leavesOf` over a child array. -/
def leavesOfList : List MMCMapINode → List MMCMapLNode
  | [] => []
  | c :: cs => leavesOf c ++ leavesOfList cs

end

/-- The path copy built by one `Put` attempt before publication: the root
read from the map with its version bumped (64-bit), transformed by
`putRecursive`. -/
def putPath (st : MMCMap) (key value : List Nat) : MMCMapINode :=
  putRecursive (MMCMapINode.mk ((st.root.Version + 1) % u64Mod)
    st.root.Bitmap st.root.Leaf st.root.Children) key value 0

/-- The path copy built by one `Delete` attempt before publication. -/
def deletePath (st : MMCMap) (key : List Nat) : MMCMapINode :=
  deleteRecursive (MMCMapINode.mk ((st.root.Version + 1) % u64Mod)
    st.root.Bitmap st.root.Leaf st.root.Children) key 0

/-- The soundness payload carried through the `rangeRecursive` induction:
errors can only be the index panic, and every returned pair is an attached
leaf of the scanned subtree passing the version filter. -/
def RangeSound (node : MMCMapINode) (minV : Nat) (res : Except GoError (List KeyValuePair)) : Prop :=
  (∀ e, res = .error e → e = .indexOutOfRange) ∧
  (∀ l p, res = .ok l → p ∈ l →
    ∃ lf, lf ∈ leavesOf node ∧ p.Version = lf.Version ∧ p.Key = lf.Key ∧
      p.Value = lf.Value ∧ minV ≤ lf.Version)

@[simp] theorem MMCMapINode.Version_mk (v b : Nat) (l : MMCMapLNode)
    (ch : List MMCMapINode) : (MMCMapINode.mk v b l ch).Version = v := rfl

@[simp] theorem MMCMapINode.Bitmap_mk (v b : Nat) (l : MMCMapLNode)
    (ch : List MMCMapINode) : (MMCMapINode.mk v b l ch).Bitmap = b := rfl

@[simp] theorem MMCMapINode.Leaf_mk (v b : Nat) (l : MMCMapLNode)
    (ch : List MMCMapINode) : (MMCMapINode.mk v b l ch).Leaf = l := rfl

@[simp] theorem MMCMapINode.Children_mk (v b : Nat) (l : MMCMapLNode)
    (ch : List MMCMapINode) : (MMCMapINode.mk v b l ch).Children = ch := rfl

theorem countP_lt_of_mem {l : List Nat} {p q : Nat → Bool}
    (hpq : ∀ a ∈ l, p a = true → q a = true) {a0 : Nat} (ha0 : a0 ∈ l)
    (hq : q a0 = true) (hp : p a0 = false) : l.countP p < l.countP q := by
  induction l with
  | nil => cases ha0
  | cons x xs ih =>
    rw [List.countP_cons, List.countP_cons]
    rcases List.mem_cons.mp ha0 with h | h
    · subst h
      rw [hp, hq]
      have hle : xs.countP p ≤ xs.countP q :=
        List.countP_mono_left (fun a ha hpa => hpq a (List.mem_cons_of_mem _ ha) hpa)
      simp only [Bool.false_eq_true, if_false, if_true]
      omega
    · have hlt : xs.countP p < xs.countP q :=
        ih (fun a ha hpa => hpq a (List.mem_cons_of_mem _ ha) hpa) h
      by_cases hpx : p x = true
      · rw [hpx, hpq x (List.mem_cons_self x xs) hpx]
        omega
      · rw [Bool.not_eq_true] at hpx
        rw [hpx]
        cases hqx : q x <;>
          simp only [Bool.false_eq_true, if_false, if_true] <;> omega

theorem chw_mod_le (b i : Nat) :
    calculateHammingWeight (b % 2 ^ i) ≤ calculateHammingWeight b := by
  unfold calculateHammingWeight
  refine List.countP_mono_left (fun a _ h => ?_)
  rw [Nat.testBit_mod_two_pow] at h
  exact (Bool.and_eq_true _ _).mp h |>.2

theorem chw_mod_lt {b i : Nat} (hbit : b.testBit i = true) (hi : i < 256) :
    calculateHammingWeight (b % 2 ^ i) < calculateHammingWeight b := by
  unfold calculateHammingWeight
  refine countP_lt_of_mem (fun a _ h => ?_) (List.mem_range.mpr hi) hbit ?_
  · rw [Nat.testBit_mod_two_pow] at h
    exact (Bool.and_eq_true _ _).mp h |>.2
  · rw [Nat.testBit_mod_two_pow]
    simp

theorem testBit_setBit_self (b i : Nat) :
    (SetBit b i).testBit i = !(b.testBit i) := by
  unfold SetBit
  rw [Nat.testBit_xor, Nat.testBit_two_pow_self]
  cases b.testBit i <;> rfl

theorem setBit_mod_eq (b i : Nat) : SetBit b i % 2 ^ i = b % 2 ^ i := by
  apply Nat.eq_of_testBit_eq
  intro j
  rw [Nat.testBit_mod_two_pow, Nat.testBit_mod_two_pow]
  by_cases hj : j < i
  · have hne : i ≠ j := by omega
    rw [SetBit, Nat.testBit_xor, Nat.testBit_two_pow_of_ne hne]
    cases b.testBit j <;> simp
  · simp [hj]

theorem getPosition_setBit (b i : Nat) :
    getPosition (SetBit b i) i = getPosition b i := by
  unfold getPosition
  rw [setBit_mod_eq]

theorem getD_insert :
    ∀ (l : List MMCMapINode) (pos : Nat), pos ≤ l.length →
      ∀ x d, (l.take pos ++ x :: l.drop pos).getD pos d = x
  | _, 0, _, _, _ => by simp
  | [], pos + 1, h, x, d => by simp at h
  | a :: l, pos + 1, h, x, d => by
    simp only [List.take_succ_cons, List.drop_succ_cons, List.cons_append,
      List.getD_cons_succ]
    exact getD_insert l pos (by simpa using h) x d

theorem getD_set_self {l : List MMCMapINode} {pos : Nat} (h : pos < l.length)
    (x d : MMCMapINode) : (l.set pos x).getD pos d = x := by
  rw [List.getD_eq_getElem _ _ (by simpa using h), List.getElem_set_self]

theorem getD_mem {l : List MMCMapINode} {pos : Nat} (h : pos < l.length)
    (d : MMCMapINode) : l.getD pos d ∈ l := by
  rw [List.getD_eq_getElem _ _ h]
  exact List.getElem_mem h

theorem wfB_mk_iff {v b : Nat} {leaf : MMCMapLNode} {ch : List MMCMapINode} :
    wfB (.mk v b leaf ch) = true ↔
      (ch.length = calculateHammingWeight b ∧ wfBList ch = true) := by
  rw [wfB]
  rw [Bool.and_eq_true, beq_iff_eq]

theorem wfBList_mem {ch : List MMCMapINode} (h : wfBList ch = true)
    {c : MMCMapINode} (hc : c ∈ ch) : wfB c = true := by
  induction ch with
  | nil => cases hc
  | cons a l ih =>
    rw [wfBList, Bool.and_eq_true] at h
    rcases List.mem_cons.mp hc with hh | hh
    · rw [hh]; exact h.1
    · exact ih h.2 hh

theorem wfB_version_irrel {v v2 b : Nat} {l l2 : MMCMapLNode}
    {ch : List MMCMapINode} (h : wfB (.mk v b l ch) = true) :
    wfB (.mk v2 b l2 ch) = true := by
  rw [wfB_mk_iff] at h ⊢
  exact h

theorem drop_cons_rest {key : List Nat} {level b : Nat} {rest : List Nat}
    (h : key.drop level = b :: rest) : key.drop (level + 1) = rest := by
  have h2 : key.drop (level + 1) = (key.drop level).drop 1 := by
    rw [List.drop_drop]
  rw [h2, h]
  rfl

theorem lt_length_of_drop_cons {key : List Nat} {level b : Nat}
    {rest : List Nat} (h : key.drop level = b :: rest) : level < key.length := by
  by_contra hle
  push_neg at hle
  rw [List.drop_eq_nil_iff.mpr hle] at h
  cases h

theorem getIndexForLevel_mem {key : List Nat} {level : Nat}
    (h : level < key.length) : getIndexForLevel key level ∈ key := by
  unfold getIndexForLevel
  rw [List.getD_eq_getElem _ _ h]
  exact List.getElem_mem h

theorem wfB_newInternalNode (v : Nat) : wfB (newInternalNode v) = true := by
  rw [newInternalNode, wfB_mk_iff]
  refine ⟨?_, rfl⟩
  decide

theorem getRecursiveWork_putRecursiveWork (rem : List Nat) :
    ∀ (key value : List Nat) (node : MMCMapINode) (level : Nat),
      wfB node = true →
      (∀ b ∈ key, b < 256) →
      key.drop level = rem →
      key ≠ [] →
      getRecursiveWork (putRecursiveWork node key value rem level) key rem level =
        some ⟨node.Version, key, value⟩ := by
  induction rem with
  | nil =>
    intro key value node level hwf hbytes hdrop hkey
    rw [putRecursiveWork]
    by_cases hc : node.Leaf.Key ≠ [] ∧ node.Leaf.Key = key
    · rw [if_pos hc]
      by_cases hv : node.Leaf.Value ≠ value
      · rw [if_pos hv, getRecursiveWork]
        simp only [MMCMapINode.Leaf_mk, MMCMapINode.Version_mk]
        rw [if_pos ⟨hc.1, hc.2.symm⟩, hc.2]
      · rw [if_neg hv, getRecursiveWork]
        simp only [MMCMapINode.Leaf_mk, MMCMapINode.Version_mk]
        rw [if_pos ⟨hc.1, hc.2.symm⟩, hc.2]
        rw [not_not] at hv
        rw [hv]
    · rw [if_neg hc, getRecursiveWork]
      simp only [MMCMapINode.Leaf_mk, MMCMapINode.Version_mk, newLeafNode]
      rw [if_pos ⟨hkey, by trivial⟩]
  | cons b rest ih =>
    intro key value node level hwf hbytes hdrop hkey
    cases node with
    | mk v bm leaf ch =>
      have hlev : level < key.length := lt_length_of_drop_cons hdrop
      have hidx : getIndexForLevel key level < 256 :=
        hbytes _ (getIndexForLevel_mem hlev)
      have hdrop2 : key.drop (level + 1) = rest := drop_cons_rest hdrop
      rw [wfB_mk_iff] at hwf
      obtain ⟨hlen, hch⟩ := hwf
      rw [putRecursiveWork]
      simp only [MMCMapINode.Version_mk, MMCMapINode.Bitmap_mk,
        MMCMapINode.Leaf_mk, MMCMapINode.Children_mk]
      by_cases hbit : IsBitSet bm (getIndexForLevel key level) = true
      · rw [if_neg (not_not_intro hbit)]
        have hpos : getPosition bm (getIndexForLevel key level) < ch.length := by
          rw [hlen]
          exact chw_mod_lt hbit hidx
        rcases hchild : ch.getD (getPosition bm (getIndexForLevel key level))
            (newInternalNode 0) with ⟨cv, cb, cl, cch⟩
        rw [getRecursiveWork]
        simp only [MMCMapINode.Bitmap_mk, MMCMapINode.Children_mk]
        rw [if_neg (not_not_intro hbit)]
        rw [getD_set_self (by simpa using hpos)]
        have hwfChild : wfB (MMCMapINode.mk cv cb cl cch) = true := by
          rw [← hchild]
          exact wfBList_mem hch (getD_mem hpos _)
        have hwf2 : wfB (MMCMapINode.mk v cb cl cch) = true :=
          wfB_version_irrel hwfChild
        simp only [MMCMapINode.Leaf_mk, MMCMapINode.Bitmap_mk,
          MMCMapINode.Children_mk]
        rw [ih key value _ (level + 1) hwf2 hbytes hdrop2 hkey]
        rfl
      · rw [if_pos hbit]
        have hbitfalse : bm.testBit (getIndexForLevel key level) = false := by
          rw [Bool.not_eq_true] at hbit
          exact hbit
        have hpos : getPosition bm (getIndexForLevel key level) ≤ ch.length := by
          rw [hlen]
          exact chw_mod_le _ _
        rw [getRecursiveWork]
        simp only [MMCMapINode.Bitmap_mk, MMCMapINode.Children_mk]
        have hbitset : IsBitSet (SetBit bm (getIndexForLevel key level))
            (getIndexForLevel key level) = true := by
          show (SetBit bm (getIndexForLevel key level)).testBit
            (getIndexForLevel key level) = true
          rw [testBit_setBit_self, hbitfalse]
          rfl
        rw [if_neg (not_not_intro hbitset), getPosition_setBit]
        rw [extendTable, getD_insert ch _ hpos]
        rw [ih key value _ (level + 1) (wfB_newInternalNode v) hbytes hdrop2 hkey]
        rw [newInternalNode]
        simp only [MMCMapINode.Version_mk]

theorem getRecursiveWork_deleteRecursiveWork (rem : List Nat) :
    ∀ (key : List Nat) (node : MMCMapINode) (level : Nat),
      wfB node = true →
      (∀ b ∈ key, b < 256) →
      key.drop level = rem →
      getRecursiveWork (deleteRecursiveWork node key rem level) key rem level =
        none := by
  induction rem with
  | nil =>
    intro key node level hwf hbytes hdrop
    rw [deleteRecursiveWork]
    by_cases hc : node.Leaf.Key ≠ [] ∧ node.Leaf.Key = key
    · rw [if_pos hc, getRecursiveWork]
      simp only [MMCMapINode.Leaf_mk, newLeafNode]
      rw [if_neg (fun hcon => hcon.1 rfl)]
    · rw [if_neg hc, getRecursiveWork]
      rw [if_neg (fun hcon => hc ⟨hcon.1, hcon.2.symm⟩)]
  | cons b rest ih =>
    intro key node level hwf hbytes hdrop
    cases node with
    | mk v bm leaf ch =>
      have hlev : level < key.length := lt_length_of_drop_cons hdrop
      have hidx : getIndexForLevel key level < 256 :=
        hbytes _ (getIndexForLevel_mem hlev)
      have hdrop2 : key.drop (level + 1) = rest := drop_cons_rest hdrop
      rw [wfB_mk_iff] at hwf
      obtain ⟨hlen, hch⟩ := hwf
      rw [deleteRecursiveWork]
      simp only [MMCMapINode.Version_mk, MMCMapINode.Bitmap_mk,
        MMCMapINode.Leaf_mk, MMCMapINode.Children_mk]
      by_cases hbit : IsBitSet bm (getIndexForLevel key level) = true
      · rw [if_neg (not_not_intro hbit)]
        have hpos : getPosition bm (getIndexForLevel key level) < ch.length := by
          rw [hlen]
          exact chw_mod_lt hbit hidx
        rcases hchild : ch.getD (getPosition bm (getIndexForLevel key level))
            (newInternalNode 0) with ⟨cv, cb, cl, cch⟩
        simp only [MMCMapINode.Leaf_mk, MMCMapINode.Bitmap_mk,
          MMCMapINode.Children_mk]
        have hwfChild : wfB (MMCMapINode.mk cv cb cl cch) = true := by
          rw [← hchild]
          exact wfBList_mem hch (getD_mem hpos _)
        have hwf2 : wfB (MMCMapINode.mk v cb cl cch) = true :=
          wfB_version_irrel hwfChild
        by_cases hcoll :
            (deleteRecursiveWork (MMCMapINode.mk v cb cl cch) key rest
              (level + 1)).Leaf.Version = v ∧
            calculateHammingWeight
              (deleteRecursiveWork (MMCMapINode.mk v cb cl cch) key rest
                (level + 1)).Bitmap = 0
        · rw [if_pos hcoll, getRecursiveWork]
          simp only [MMCMapINode.Bitmap_mk]
          have hbit2 : bm.testBit (getIndexForLevel key level) = true := hbit
          have hcleared : IsBitSet (SetBit bm (getIndexForLevel key level))
              (getIndexForLevel key level) = false := by
            show (SetBit bm (getIndexForLevel key level)).testBit
              (getIndexForLevel key level) = false
            rw [testBit_setBit_self, hbit2]
            rfl
          rw [if_pos (by rw [hcleared]; exact Bool.false_ne_true)]
        · rw [if_neg hcoll, getRecursiveWork]
          simp only [MMCMapINode.Bitmap_mk, MMCMapINode.Children_mk]
          rw [if_neg (not_not_intro hbit)]
          rw [getD_set_self (by simpa using hpos)]
          exact ih key _ (level + 1) hwf2 hbytes hdrop2
      · rw [if_pos hbit, getRecursiveWork]
        simp only [MMCMapINode.Bitmap_mk, MMCMapINode.Children_mk]
        rw [if_pos hbit]

theorem wfB_rebuild (node : MMCMapINode) (v2 : Nat) (l2 : MMCMapLNode)
    (h : wfB node = true) :
    wfB (MMCMapINode.mk v2 node.Bitmap l2 node.Children) = true := by
  cases node with
  | mk v b l ch => exact wfB_version_irrel h

theorem deleteRecursiveWork_version (node : MMCMapINode)
    (key rem : List Nat) (level : Nat) :
    (deleteRecursiveWork node key rem level).Version = node.Version := by
  cases rem with
  | nil =>
    rw [deleteRecursiveWork]
    split
    · simp
    · rfl
  | cons b rest =>
    rw [deleteRecursiveWork]
    split
    · rfl
    · dsimp only
      split <;> rfl

theorem exclusiveWriteMmap_ok (st : MMCMap) (path : MMCMapINode)
    (h : (exclusiveWriteMmap st path).2.1 = true) :
    (exclusiveWriteMmap st path).1.root = path ∧
    (exclusiveWriteMmap st path).1.meta.Version = path.Version % u64Mod ∧
    (exclusiveWriteMmap st path).1.meta.RootOffset = st.meta.NextStartOffset ∧
    (exclusiveWriteMmap st path).1.meta.NextStartOffset =
      (st.meta.NextStartOffset + serializedPathSize path path.Version) % u64Mod ∧
    st.meta.Version = (path.Version % u64Mod + u64Mod - 1) % u64Mod ∧
    (exclusiveWriteMmap st path).2.2 =
      [.casVersion, .storeEndOffset, .writeNodeBytes, .storeRootOffset] ∧
    (exclusiveWriteMmap st path).1.mappedLen = st.mappedLen := by
  by_cases hres : determineIfResize st.mappedLen
      ((st.meta.NextStartOffset + serializedPathSize path path.Version) % u64Mod) = true
  · simp only [exclusiveWriteMmap, hres, if_true] at h
    simp at h
  · rw [Bool.not_eq_true] at hres
    by_cases hguard : st.meta.Version = (path.Version % u64Mod + u64Mod - 1) % u64Mod
    · have hstep : exclusiveWriteMmap st path =
          ({ st with
              meta := ⟨path.Version % u64Mod, st.meta.NextStartOffset,
                (st.meta.NextStartOffset + serializedPathSize path path.Version) % u64Mod⟩,
              root := path }, true,
            [.casVersion, .storeEndOffset, .writeNodeBytes, .storeRootOffset]) := by
        simp only [exclusiveWriteMmap, hres, Bool.false_eq_true, if_false, hguard,
          eq_self_iff_true, if_true]
      rw [hstep]
      exact ⟨rfl, rfl, rfl, rfl, hguard, rfl, rfl⟩
    · simp only [exclusiveWriteMmap, hres, Bool.false_eq_true, if_false,
        if_neg hguard] at h

/-- C1 (counterexample): the claim quantifies over every key, but for the
empty key a successful `Put` is followed by a `Get` that returns nothing:
the empty-keyed attachment written by `Put` is treated by `Get` as absence,
so no pair with value `[1]` is returned. -/
theorem c1_counterexample :
    (MMCMap.Put exampleState [] [1]).2.1 = true ∧
    MMCMap.Get (MMCMap.Put exampleState [] [1]).1 [] = none := by
  decide

/-- C1 (amended): for every nonempty key `k` of bytes and value `v`, a
successful `Put(k, v)` followed by `Get(k)` with no intervening mutation
returns the pair `(version + 1, k, v)`: `Get` descends by the byte index
`key[level]` at each level and reads the attached leaf at depth `len(k)`. -/
theorem c1_put_then_get (st : MMCMap) (key value : List Nat)
    (hsucc : (MMCMap.Put st key value).2.1 = true)
    (hwf : wfB st.root = true)
    (hbytes : ∀ b ∈ key, b < 256)
    (hkey : key ≠ []) :
    MMCMap.Get (MMCMap.Put st key value).1 key =
      some ⟨(st.root.Version + 1) % u64Mod, key, value⟩ := by
  have hroot : (MMCMap.Put st key value).1.root = putPath st key value :=
    (exclusiveWriteMmap_ok st (putPath st key value) hsucc).1
  rw [MMCMap.Get, hroot, putPath, putRecursive, getRecursive, List.drop_zero]
  have hwf2 : wfB (MMCMapINode.mk ((st.root.Version + 1) % u64Mod)
      st.root.Bitmap st.root.Leaf st.root.Children) = true :=
    wfB_rebuild st.root _ _ hwf
  exact getRecursiveWork_putRecursiveWork key key value
    (MMCMapINode.mk ((st.root.Version + 1) % u64Mod) st.root.Bitmap
      st.root.Leaf st.root.Children) 0 hwf2 hbytes (List.drop_zero key) hkey

/-- C1 (witness): concrete instance of the amended claim on a fresh map. -/
theorem c1_witness :
    MMCMap.Get (MMCMap.Put exampleState [104, 105] [42]).1 [104, 105] =
      some ⟨1, [104, 105], [42]⟩ :=
  c1_put_then_get exampleState [104, 105] [42] (by decide) (by decide)
    (by decide) (by decide)

/-- C2: a successful `Delete(k)` followed by `Get(k)` with no intervening
mutation returns `none`: the matching attached leaf is replaced by the
empty-key empty-value tombstone (possibly collapsing the emptied subtree),
and `Get` treats an empty-keyed attachment as absence, never returning it
as a value; a `Delete` of an absent key leaves the key absent. -/
theorem c2_delete_then_get (st : MMCMap) (key : List Nat)
    (hsucc : (MMCMap.Delete st key).2.1 = true)
    (hwf : wfB st.root = true)
    (hbytes : ∀ b ∈ key, b < 256) :
    MMCMap.Get (MMCMap.Delete st key).1 key = none := by
  have hroot : (MMCMap.Delete st key).1.root = deletePath st key :=
    (exclusiveWriteMmap_ok st (deletePath st key) hsucc).1
  rw [MMCMap.Get, hroot, deletePath, deleteRecursive, getRecursive,
    List.drop_zero]
  have hwf2 : wfB (MMCMapINode.mk ((st.root.Version + 1) % u64Mod)
      st.root.Bitmap st.root.Leaf st.root.Children) = true :=
    wfB_rebuild st.root _ _ hwf
  exact getRecursiveWork_deleteRecursiveWork key key
    (MMCMapINode.mk ((st.root.Version + 1) % u64Mod) st.root.Bitmap
      st.root.Leaf st.root.Children) 0 hwf2 hbytes (List.drop_zero key)

/-- C2 (witness): a key is inserted and then deleted on a fresh map; the
following `Get` returns `none`. -/
theorem c2_witness :
    MMCMap.Get (MMCMap.Delete (MMCMap.Put exampleState [104] [9]).1 [104]).1
      [104] = none :=
  c2_delete_then_get (MMCMap.Put exampleState [104] [9]).1 [104]
    (by decide) (by decide) (by decide)

/-- C4 (counterexample): on a fresh map the key `[97]` is absent, yet
`Delete([97])` publishes: it returns true (not false), `Meta.version`
increments and `Meta.root_offset` moves to the old end offset. -/
theorem c4_counterexample :
    MMCMap.Get exampleState [97] = none ∧
    (MMCMap.Delete exampleState [97]).2.1 = true ∧
    (MMCMap.Delete exampleState [97]).1.meta.Version =
      exampleState.meta.Version + 1 ∧
    (MMCMap.Delete exampleState [97]).1.meta.RootOffset ≠
      exampleState.meta.RootOffset := by
  decide

/-- C4 (amended): `Delete(k)` of an absent key still publishes: under the
sequential-state invariants (root version equals meta version, no version
or offset overflow, the new path fits the mapped region) the operation
returns true, `Meta.version` increases by exactly 1, `Meta.root_offset`
becomes the old `Meta.end_offset`, and `Meta.end_offset` does not
decrease. -/
theorem c4_delete_absent_publishes (st : MMCMap) (key : List Nat)
    (habsent : MMCMap.Get st key = none)
    (hver : st.root.Version = st.meta.Version)
    (hsmall : st.meta.Version + 1 < u64Mod)
    (hpos : 0 < st.meta.NextStartOffset)
    (hfit : st.meta.NextStartOffset +
      serializedPathSize (deletePath st key) (deletePath st key).Version <
        st.mappedLen)
    (hlen : st.mappedLen ≤ u64Mod) :
    (MMCMap.Delete st key).2.1 = true ∧
    (MMCMap.Delete st key).1.meta.Version = st.meta.Version + 1 ∧
    (MMCMap.Delete st key).1.meta.RootOffset = st.meta.NextStartOffset ∧
    st.meta.NextStartOffset ≤ (MMCMap.Delete st key).1.meta.NextStartOffset := by
  have hvlt : st.meta.Version < u64Mod := by omega
  have hpv : (deletePath st key).Version = (st.root.Version + 1) % u64Mod := by
    rw [deletePath, deleteRecursive]
    exact deleteRecursiveWork_version _ _ _ _
  have hv1 : (deletePath st key).Version = st.meta.Version + 1 := by
    rw [hpv, hver]
    exact Nat.mod_eq_of_lt hsmall
  have hnowrap : st.meta.NextStartOffset +
      serializedPathSize (deletePath st key) (deletePath st key).Version <
        u64Mod := lt_of_lt_of_le hfit hlen
  have hmod : (st.meta.NextStartOffset +
      serializedPathSize (deletePath st key) (deletePath st key).Version) %
        u64Mod =
      st.meta.NextStartOffset +
        serializedPathSize (deletePath st key) (deletePath st key).Version :=
    Nat.mod_eq_of_lt hnowrap
  have hresize : determineIfResize st.mappedLen
      ((st.meta.NextStartOffset +
        serializedPathSize (deletePath st key) (deletePath st key).Version) %
          u64Mod) = false := by
    rw [hmod, determineIfResize, if_pos ⟨by omega, hfit⟩]
  have hguard : st.meta.Version =
      ((deletePath st key).Version % u64Mod + u64Mod - 1) % u64Mod := by
    rw [hv1, Nat.mod_eq_of_lt hsmall]
    have harith : st.meta.Version + 1 + u64Mod - 1 = st.meta.Version + u64Mod := by
      omega
    rw [harith, Nat.add_mod_right, Nat.mod_eq_of_lt hvlt]
  have hsucc : (exclusiveWriteMmap st (deletePath st key)).2.1 = true := by
    simp only [exclusiveWriteMmap, hresize, Bool.false_eq_true, if_false,
      ← hguard, eq_self_iff_true, if_true]
  have hok := exclusiveWriteMmap_ok st (deletePath st key) hsucc
  have hDeq : MMCMap.Delete st key = exclusiveWriteMmap st (deletePath st key) :=
    rfl
  rw [hDeq]
  refine ⟨hsucc, ?_, hok.2.2.1, ?_⟩
  · rw [hok.2.1, Nat.mod_eq_of_lt (by omega : (deletePath st key).Version < u64Mod)]
    exact hv1
  · rw [hok.2.2.2.1, hmod]
    exact Nat.le_add_right _ _

/-- C4 (witness): concrete instance of the amended claim on a fresh map. -/
theorem c4_witness :
    (MMCMap.Delete exampleState [97]).2.1 = true ∧
    (MMCMap.Delete exampleState [97]).1.meta.Version =
      exampleState.meta.Version + 1 ∧
    (MMCMap.Delete exampleState [97]).1.meta.RootOffset =
      exampleState.meta.NextStartOffset ∧
    exampleState.meta.NextStartOffset ≤
      (MMCMap.Delete exampleState [97]).1.meta.NextStartOffset :=
  c4_delete_absent_publishes exampleState [97] (by decide) (by decide)
    (by decide) (by decide) (by decide) (by decide)

/-- C5: per successful publication, `Meta.version` increases by exactly 1
and `Meta.end_offset` does not decrease; publication succeeds only when the
observed version equals the new version minus 1 (here: the stored new
version is the observed version plus 1). -/
theorem c5_publication_monotonic (st : MMCMap) (path : MMCMapINode)
    (hsucc : (exclusiveWriteMmap st path).2.1 = true)
    (hsmall : st.meta.Version + 1 < u64Mod)
    (hnowrap : st.meta.NextStartOffset +
      serializedPathSize path path.Version < u64Mod) :
    (exclusiveWriteMmap st path).1.meta.Version = st.meta.Version + 1 ∧
    st.meta.NextStartOffset ≤
      (exclusiveWriteMmap st path).1.meta.NextStartOffset ∧
    path.Version % u64Mod = st.meta.Version + 1 := by
  obtain ⟨-, hver, -, hnext, hguard, -, -⟩ := exclusiveWriteMmap_ok st path hsucc
  have hu : 0 < u64Mod := by decide
  have hnvlt : path.Version % u64Mod < u64Mod := Nat.mod_lt _ hu
  have hcase : path.Version % u64Mod = st.meta.Version + 1 := by
    rcases Nat.eq_zero_or_pos (path.Version % u64Mod) with h0 | hp
    · rw [h0] at hguard
      rw [Nat.zero_add, Nat.mod_eq_of_lt (by omega)] at hguard
      omega
    · have h1 : path.Version % u64Mod + u64Mod - 1 =
          (path.Version % u64Mod - 1) + u64Mod := by omega
      rw [h1, Nat.add_mod_right, Nat.mod_eq_of_lt (by omega)] at hguard
      omega
  refine ⟨?_, ?_, hcase⟩
  · rw [hver, hcase]
  · rw [hnext, Nat.mod_eq_of_lt hnowrap]
    exact Nat.le_add_right _ _

/-- C5 (witness): concrete successful publication on a fresh map. -/
theorem c5_witness :
    (exclusiveWriteMmap exampleState (MMCMapINode.mk 1 0 ⟨1, [], []⟩ [])).1.meta.Version =
      exampleState.meta.Version + 1 ∧
    exampleState.meta.NextStartOffset ≤
      (exclusiveWriteMmap exampleState
        (MMCMapINode.mk 1 0 ⟨1, [], []⟩ [])).1.meta.NextStartOffset ∧
    (MMCMapINode.mk 1 0 ⟨1, [], []⟩ []).Version % u64Mod =
      exampleState.meta.Version + 1 :=
  c5_publication_monotonic exampleState (MMCMapINode.mk 1 0 ⟨1, [], []⟩ [])
    (by decide) (by decide) (by decide)

/-- C6 (counterexample): a concrete successful publication performs its
stores in the order version-CAS, end-offset, node bytes, root-offset — the
version is published first, not last, contradicting the claimed order. -/
theorem c6_counterexample :
    (exclusiveWriteMmap exampleState (MMCMapINode.mk 1 0 ⟨1, [], []⟩ [])).2.1 =
      true ∧
    (exclusiveWriteMmap exampleState (MMCMapINode.mk 1 0 ⟨1, [], []⟩ [])).2.2 =
      [.casVersion, .storeEndOffset, .writeNodeBytes, .storeRootOffset] ∧
    ((exclusiveWriteMmap exampleState
        (MMCMapINode.mk 1 0 ⟨1, [], []⟩ [])).2.2).getLast? ≠
      some WriteEvent.casVersion := by
  decide

/-- C6 (amended): every successful publication performs its effects in the
order: version compare-and-swap first (the version acts as the
reservation), then the end-offset store, then the node bytes, and the
root-offset store last — never the version after the node bytes and root
offset. -/
theorem c6_publish_order (st : MMCMap) (path : MMCMapINode)
    (hsucc : (exclusiveWriteMmap st path).2.1 = true) :
    (exclusiveWriteMmap st path).2.2 =
      [.casVersion, .storeEndOffset, .writeNodeBytes, .storeRootOffset] :=
  (exclusiveWriteMmap_ok st path hsucc).2.2.2.2.2.1

/-- C6 (witness): concrete instance of the publication order. -/
theorem c6_witness :
    (exclusiveWriteMmap exampleState (MMCMapINode.mk 1 0 ⟨1, [], []⟩ [])).2.2 =
      [.casVersion, .storeEndOffset, .writeNodeBytes, .storeRootOffset] :=
  c6_publish_order exampleState (MMCMapINode.mk 1 0 ⟨1, [], []⟩ []) (by decide)

/-- C8 (counterexample): with 4 KiB pages the initial allocation is
`4096 * 16 * 1000 = 65536000` bytes, which is not 64 MiB; and at a mapped
length of `2 ^ 30 - 2` bytes (below 1 GiB but at least `10 ^ 9`) the
schedule adds `10 ^ 9` instead of doubling. -/
theorem c8_counterexample :
    allocateSize 0 4096 = 65536000 ∧
    allocateSize 0 4096 ≠ 64 * 1024 * 1024 ∧
    allocateSize (2 ^ 30 - 2) 4096 = 2 ^ 30 - 2 + 1000000000 ∧
    allocateSize (2 ^ 30 - 2) 4096 ≠ (2 ^ 30 - 2) * 2 := by
  decide

/-- C8 (amended): each resize event follows the monotonic schedule with the
source's constants: an empty mapping gets `pageSize * 16 * 1000` bytes
(65,536,000 with 4 KiB pages, not 64 MiB); while the mapped length is below
`MaxResize = 10 ^ 9` bytes (1 GB decimal, not 1 GiB) it doubles; from
`MaxResize` on it grows by `MaxResize` per event; the schedule always
grows the mapping strictly. -/
theorem c8_growth_schedule (len pageSize : Nat) (hpsz : 0 < pageSize) :
    (len = 0 → allocateSize len pageSize = pageSize * 16 * 1000) ∧
    (0 < len → len < MaxResize → allocateSize len pageSize = len * 2) ∧
    (MaxResize ≤ len → allocateSize len pageSize = len + MaxResize) ∧
    len < allocateSize len pageSize := by
  unfold allocateSize MaxResize
  by_cases h0 : len = 0
  · subst h0
    rw [if_pos rfl]
    exact ⟨fun _ => rfl, fun h _ => absurd h (by omega),
      fun h => absurd h (by omega), by omega⟩
  · rw [if_neg h0]
    by_cases hge : len ≥ 1000000000
    · rw [if_pos hge]
      exact ⟨fun h => absurd h h0, fun _ h => by omega, fun _ => rfl, by omega⟩
    · rw [if_neg hge]
      exact ⟨fun h => absurd h h0, fun _ _ => rfl, fun h => by omega, by omega⟩

/-- C8 (witness): the initial allocation with 4 KiB pages. -/
theorem c8_witness : allocateSize 0 4096 = 4096 * 16 * 1000 :=
  (c8_growth_schedule 0 4096 (by decide)).1 rfl

theorem sizeOf_mem_children {c : MMCMapINode} {ch : List MMCMapINode}
    (h : c ∈ ch) (v b : Nat) (l : MMCMapLNode) :
    sizeOf c < sizeOf (MMCMapINode.mk v b l ch) := by
  have h1 : sizeOf c < sizeOf ch := List.sizeOf_lt_of_mem h
  simp only [MMCMapINode.mk.sizeOf_spec]
  omega

theorem leavesOf_mk (v b : Nat) (l : MMCMapLNode) (ch : List MMCMapINode) :
    leavesOf (MMCMapINode.mk v b l ch) = l :: leavesOfList ch := by
  rw [leavesOf]

theorem leavesOfList_of_mem {c : MMCMapINode} {ch : List MMCMapINode}
    (hc : c ∈ ch) {x : MMCMapLNode} (hx : x ∈ leavesOf c) :
    x ∈ leavesOfList ch := by
  induction ch with
  | nil => cases hc
  | cons a rest ih =>
    rw [leavesOfList]
    rcases List.mem_cons.mp hc with h | h
    · exact List.mem_append_left _ (h ▸ hx)
    · exact List.mem_append_right _ (ih h)

theorem rangeHeader_inl {bm : Nat} {leaf : MMCMapLNode} {n minV : Nat}
    {sk ek : Option (List Nat)} {lvl : Nat} {early : List KeyValuePair}
    (h : rangeHeader bm leaf n minV sk ek lvl = .inl early) : early = [] := by
  rw [rangeHeader] at h
  split_ifs at h
  all_goals cases h
  all_goals rfl

theorem rangeHeader_inr_pairs {bm : Nat} {leaf : MMCMapLNode} {n minV : Nat}
    {sk ek : Option (List Nat)} {lvl : Nat} {pairs0 : List KeyValuePair}
    {sPos ePos : Nat}
    (h : rangeHeader bm leaf n minV sk ek lvl = .inr (pairs0, sPos, ePos))
    {p : KeyValuePair} (hp : p ∈ pairs0) :
    p.Version = leaf.Version ∧ p.Key = leaf.Key ∧ p.Value = leaf.Value ∧
      minV ≤ leaf.Version := by
  rw [rangeHeader] at h
  split_ifs at h
  all_goals cases h
  all_goals first
    | (rcases List.mem_singleton.mp hp with rfl
       rename_i hemit
       exact ⟨rfl, rfl, rfl, hemit.1⟩)
    | cases hp

theorem rangeAt_sound (cs : List MMCMapINode)
    (IH : ∀ c ∈ cs, ∀ minV sk ek lvl,
      RangeSound c minV (rangeRecursive c minV sk ek lvl)) :
    ∀ k minV sk ek lvl,
      (∀ e, rangeAt cs k minV sk ek lvl = .error e → e = .indexOutOfRange) ∧
      (∀ l p, rangeAt cs k minV sk ek lvl = .ok l → p ∈ l →
        ∃ c, c ∈ cs ∧ ∃ lf, lf ∈ leavesOf c ∧ p.Version = lf.Version ∧
          p.Key = lf.Key ∧ p.Value = lf.Value ∧ minV ≤ lf.Version) := by
  induction cs with
  | nil =>
    intro k minV sk ek lvl
    constructor
    · intro e h
      rw [rangeAt] at h
      cases h
      rfl
    · intro l p h
      rw [rangeAt] at h
      cases h
  | cons c rest ih =>
    intro k minV sk ek lvl
    cases k with
    | zero =>
      have hs := IH c (List.mem_cons_self c rest) minV sk ek (lvl + 1)
      constructor
      · intro e h
        rw [rangeAt] at h
        exact hs.1 e h
      · intro l p h hp
        rw [rangeAt] at h
        obtain ⟨lf, hlf, h1, h2, h3, h4⟩ := hs.2 l p h hp
        exact ⟨c, List.mem_cons_self c rest, lf, hlf, h1, h2, h3, h4⟩
    | succ k =>
      have hrest := ih (fun c hc => IH c (List.mem_cons_of_mem _ hc)) k minV sk ek lvl
      constructor
      · intro e h
        rw [rangeAt] at h
        exact hrest.1 e h
      · intro l p h hp
        rw [rangeAt] at h
        obtain ⟨c2, hc2, rest2⟩ := hrest.2 l p h hp
        exact ⟨c2, List.mem_cons_of_mem _ hc2, rest2⟩

theorem rangeChildrenLoop_sound (cs : List MMCMapINode)
    (IH : ∀ c ∈ cs, ∀ minV sk ek lvl,
      RangeSound c minV (rangeRecursive c minV sk ek lvl)) :
    ∀ j sPos ePos minV sk ek lvl,
      (∀ e, rangeChildrenLoop cs j sPos ePos minV sk ek lvl = .error e →
        e = .indexOutOfRange) ∧
      (∀ l p, rangeChildrenLoop cs j sPos ePos minV sk ek lvl = .ok l → p ∈ l →
        ∃ c, c ∈ cs ∧ ∃ lf, lf ∈ leavesOf c ∧ p.Version = lf.Version ∧
          p.Key = lf.Key ∧ p.Value = lf.Value ∧ minV ≤ lf.Version) := by
  induction cs with
  | nil =>
    intro j sPos ePos minV sk ek lvl
    constructor
    · intro e h
      rw [rangeChildrenLoop] at h
      cases h
    · intro l p h hp
      rw [rangeChildrenLoop] at h
      cases h
      cases hp
  | cons c rest ih =>
    intro j sPos ePos minV sk ek lvl
    have hrest := ih (fun c hc => IH c (List.mem_cons_of_mem _ hc))
      (j + 1) sPos ePos minV sk ek lvl
    have hcall : ∃ sk2 ek2,
        (if j - sPos = 0 ∧ sk.isSome then
          rangeRecursive c minV sk none (lvl + 1)
        else if j - sPos = ePos ∧ ek.isSome then
          rangeRecursive c minV none ek (lvl + 1)
        else rangeRecursive c minV none none (lvl + 1)) =
        rangeRecursive c minV sk2 ek2 (lvl + 1) := by
      split_ifs <;> exact ⟨_, _, rfl⟩
    obtain ⟨sk2, ek2, hcall⟩ := hcall
    have hc := IH c (List.mem_cons_self c rest) minV sk2 ek2 (lvl + 1)
    constructor
    · intro e h
      rw [rangeChildrenLoop] at h
      split_ifs at h
      · dsimp only at h
        rw [hcall] at h
        cases hres : rangeRecursive c minV sk2 ek2 (lvl + 1) with
        | error e2 =>
          rw [hres] at h
          cases h
          exact hc.1 _ hres
        | ok kv =>
          rw [hres] at h
          cases hloop : rangeChildrenLoop rest (j + 1) sPos ePos minV sk ek lvl with
          | error e3 =>
            rw [hloop] at h
            cases h
            exact hrest.1 _ hloop
          | ok more =>
            rw [hloop] at h
            cases h
      · exact hrest.1 e h
    · intro l p h hp
      rw [rangeChildrenLoop] at h
      split_ifs at h
      · dsimp only at h
        rw [hcall] at h
        cases hres : rangeRecursive c minV sk2 ek2 (lvl + 1) with
        | error e2 =>
          rw [hres] at h
          cases h
        | ok kv =>
          rw [hres] at h
          cases hloop : rangeChildrenLoop rest (j + 1) sPos ePos minV sk ek lvl with
          | error e3 =>
            rw [hloop] at h
            cases h
          | ok more =>
            rw [hloop] at h
            cases h
            rcases List.mem_append.mp hp with hin | hin
            · obtain ⟨lf, hlf, h1, h2, h3, h4⟩ := hc.2 kv p hres hin
              exact ⟨c, List.mem_cons_self c rest, lf, hlf, h1, h2, h3, h4⟩
            · obtain ⟨c2, hc2, rest2⟩ := hrest.2 more p hloop hin
              exact ⟨c2, List.mem_cons_of_mem _ hc2, rest2⟩
      · obtain ⟨c2, hc2, rest2⟩ := hrest.2 l p h hp
        exact ⟨c2, List.mem_cons_of_mem _ hc2, rest2⟩

theorem rangeRecursive_sound :
    ∀ (n : Nat) (node : MMCMapINode), sizeOf node ≤ n →
      ∀ minV sk ek lvl, RangeSound node minV (rangeRecursive node minV sk ek lvl) := by
  intro n
  induction n with
  | zero =>
    intro node hsz
    exfalso
    cases node with
    | mk v b l ch =>
      simp only [MMCMapINode.mk.sizeOf_spec] at hsz
      omega
  | succ n ihn =>
    intro node hsz minV sk ek lvl
    cases node with
    | mk v bm leaf ch =>
      have IH : ∀ c ∈ ch, ∀ minV2 sk2 ek2 lvl2,
          RangeSound c minV2 (rangeRecursive c minV2 sk2 ek2 lvl2) := by
        intro c hc minV2 sk2 ek2 lvl2
        have hlt : sizeOf c < sizeOf (MMCMapINode.mk v bm leaf ch) :=
          sizeOf_mem_children hc v bm leaf
        exact ihn c (by omega) minV2 sk2 ek2 lvl2
      rw [rangeRecursive]
      rcases hhd : rangeHeader bm leaf ch.length minV sk ek lvl with early | ⟨pairs0, sPos, ePos⟩
      · dsimp only
        constructor
        · intro e h
          cases h
        · intro l p h hp
          cases h
          rw [rangeHeader_inl hhd] at hp
          cases hp
      · dsimp only
        by_cases hne : ch.length > 0
        · rw [if_pos hne]
          by_cases heq : sPos = ePos
          · rw [if_pos heq]
            have hat := rangeAt_sound ch IH sPos minV sk ek lvl
            cases hra : rangeAt ch sPos minV sk ek lvl with
            | error e2 =>
              constructor
              · intro e h
                cases h
                exact hat.1 _ hra
              · intro l p h hp
                cases h
            | ok kv =>
              constructor
              · intro e h
                cases h
              · intro l p h hp
                cases h
                rcases List.mem_append.mp hp with hin | hin
                · obtain ⟨h1, h2, h3, h4⟩ := rangeHeader_inr_pairs hhd hin
                  refine ⟨leaf, ?_, h1, h2, h3, h4⟩
                  rw [leavesOf_mk]
                  exact List.mem_cons_self _ _
                · obtain ⟨c, hcm, lf, hlf, h1, h2, h3, h4⟩ := hat.2 kv p hra hin
                  refine ⟨lf, ?_, h1, h2, h3, h4⟩
                  rw [leavesOf_mk]
                  exact List.mem_cons_of_mem _ (leavesOfList_of_mem hcm hlf)
          · rw [if_neg heq]
            by_cases hbounds : sPos ≤ ePos ∧ ePos ≤ ch.length
            · rw [if_pos hbounds]
              have hloopS := rangeChildrenLoop_sound ch IH 0 sPos ePos minV sk ek lvl
              cases hlp : rangeChildrenLoop ch 0 sPos ePos minV sk ek lvl with
              | error e2 =>
                constructor
                · intro e h
                  cases h
                  exact hloopS.1 _ hlp
                · intro l p h hp
                  cases h
              | ok kvs =>
                constructor
                · intro e h
                  cases h
                · intro l p h hp
                  cases h
                  rcases List.mem_append.mp hp with hin | hin
                  · obtain ⟨h1, h2, h3, h4⟩ := rangeHeader_inr_pairs hhd hin
                    refine ⟨leaf, ?_, h1, h2, h3, h4⟩
                    rw [leavesOf_mk]
                    exact List.mem_cons_self _ _
                  · obtain ⟨c, hcm, lf, hlf, h1, h2, h3, h4⟩ := hloopS.2 kvs p hlp hin
                    refine ⟨lf, ?_, h1, h2, h3, h4⟩
                    rw [leavesOf_mk]
                    exact List.mem_cons_of_mem _ (leavesOfList_of_mem hcm hlf)
            · rw [if_neg hbounds]
              constructor
              · intro e h
                cases h
                rfl
              · intro l p h hp
                cases h
        · rw [if_neg hne]
          constructor
          · intro e h
            cases h
          · intro l p h hp
            cases h
            obtain ⟨h1, h2, h3, h4⟩ := rangeHeader_inr_pairs hhd hp
            refine ⟨leaf, ?_, h1, h2, h3, h4⟩
            rw [leavesOf_mk]
            exact List.mem_cons_self _ _

/-- C3 (counterexample): the map holds exactly the live pair
`([97, 98], [7])` ("ab"), and with `start = [97, 97]` ("aa") and
`end = [98, 98]` ("bb") the key lies in `[start, end)` (both comparisons
shown), yet `Range(start, end, None)` returns the empty list: the
start-boundary descent prunes the whole subtree because the interior node
at level 1 has no attached leaf greater than the start key. -/
theorem c3_counterexample :
    MMCMap.Range (MMCMap.Put exampleState [97, 98] [7]).1 [97, 97] [98, 98]
      none = .ok [] ∧
    MMCMap.Get (MMCMap.Put exampleState [97, 98] [7]).1 [97, 98] =
      some ⟨1, [97, 98], [7]⟩ ∧
    bytesCompare [97, 97] [97, 98] = -1 ∧
    bytesCompare [97, 98] [98, 98] = -1 := by
  decide

/-- C3 (amended): `Range(start, end, minVersion)` returns only pairs that
are attached leaves of the scanned snapshot whose version passes the
filter (a sub-collection of the stored data); it does not return exactly
the live pairs of `[start, end)` — live keys inside the interval can be
omitted. -/
theorem c3_range_subset (st : MMCMap) (startKey endKey : List Nat)
    (minVersion : Option Nat) (res : List KeyValuePair)
    (hok : MMCMap.Range st startKey endKey minVersion = .ok res) :
    ∀ p ∈ res, ∃ lf, lf ∈ leavesOf st.root ∧ p.Version = lf.Version ∧
      p.Key = lf.Key ∧ p.Value = lf.Value ∧ minVersion.getD 0 ≤ lf.Version := by
  intro p hp
  rw [MMCMap.Range] at hok
  split_ifs at hok
  have hs := rangeRecursive_sound (sizeOf st.root) st.root (Nat.le_refl _)
    (minVersion.getD 0) (some startKey) (some endKey) 0
  exact hs.2 res p hok hp

/-- C3 (witness): a concrete range scan returning two pairs; the first
returned pair is exhibited as an attached leaf of the snapshot. -/
theorem c3_witness :
    ∃ lf, lf ∈ leavesOf
        (MMCMap.Put (MMCMap.Put exampleState [97] [1]).1 [97, 98] [2]).1.root ∧
      (⟨2, [97], [1]⟩ : KeyValuePair).Version = lf.Version ∧
      (⟨2, [97], [1]⟩ : KeyValuePair).Key = lf.Key ∧
      (⟨2, [97], [1]⟩ : KeyValuePair).Value = lf.Value ∧
      (none : Option Nat).getD 0 ≤ lf.Version :=
  c3_range_subset (MMCMap.Put (MMCMap.Put exampleState [97] [1]).1 [97, 98] [2]).1
    [97] [97, 99] none [⟨2, [97], [1]⟩, ⟨2, [97, 98], [2]⟩] (by decide)
    ⟨2, [97], [1]⟩ (by decide)

/-- C7: `Range` rejects reversed bounds with the invalid-argument error and
returns no results; for `start ≤ end` the bounds check never fires — any
failure of the scan is the index panic, not the invalid-argument error. -/
theorem c7_range_bounds_check (st : MMCMap) (startKey endKey : List Nat)
    (minVersion : Option Nat) :
    (bytesCompare startKey endKey = 1 →
      MMCMap.Range st startKey endKey minVersion = .error .invalidArgument) ∧
    (bytesCompare startKey endKey ≠ 1 →
      ∀ e, MMCMap.Range st startKey endKey minVersion = .error e →
        e = .indexOutOfRange) := by
  constructor
  · intro hgt
    rw [MMCMap.Range, if_pos hgt]
  · intro hle e h
    rw [MMCMap.Range, if_neg hle] at h
    have hs := rangeRecursive_sound (sizeOf st.root) st.root (Nat.le_refl _)
      (minVersion.getD 0) (some startKey) (some endKey) 0
    exact hs.1 e h

/-- C7 (witness): concrete instances of both directions of the bounds
check. -/
theorem c7_witness :
    MMCMap.Range exampleState [98] [97] none = .error .invalidArgument ∧
    ∀ e, MMCMap.Range exampleState [97] [98] none = .error e →
      e = .indexOutOfRange :=
  ⟨(c7_range_bounds_check exampleState [98] [97] none).1 (by decide),
   (c7_range_bounds_check exampleState [97] [98] none).2 (by decide)⟩

theorem rangePositionalLoop_keys (cs : List MMCMapINode)
    (IH : ∀ c ∈ cs, ∀ minV s e lvl res p,
      rangeRecursivePositional c minV s e lvl = .ok res → p ∈ res →
        p.Key ≠ []) :
    ∀ j sIdx eIdx minV lvl res p,
      rangePositionalLoop cs j sIdx eIdx minV lvl = .ok res → p ∈ res →
        p.Key ≠ [] := by
  induction cs with
  | nil =>
    intro j sIdx eIdx minV lvl res p h hp
    rw [rangePositionalLoop] at h
    cases h
    cases hp
  | cons c rest ih =>
    intro j sIdx eIdx minV lvl res p h hp
    have hrest := ih (fun c hc => IH c (List.mem_cons_of_mem _ hc))
      (j + 1) sIdx eIdx minV lvl
    rw [rangePositionalLoop] at h
    split_ifs at h
    · cases hres : rangeRecursivePositional c minV 0 c.Children.length (lvl + 1) with
      | error e2 =>
        rw [hres] at h
        cases h
      | ok kv =>
        rw [hres] at h
        cases hloop : rangePositionalLoop rest (j + 1) sIdx eIdx minV lvl with
        | error e3 =>
          rw [hloop] at h
          cases h
        | ok more =>
          rw [hloop] at h
          cases h
          rcases List.mem_append.mp hp with hin | hin
          · exact IH c (List.mem_cons_self c rest) minV 0 c.Children.length
              (lvl + 1) kv p hres hin
          · exact hrest more p hloop hin
    · exact hrest res p h hp

theorem rangeRecursivePositional_keys :
    ∀ (n : Nat) (node : MMCMapINode), sizeOf node ≤ n →
      ∀ minV sIdx eIdx lvl res p,
        rangeRecursivePositional node minV sIdx eIdx lvl = .ok res →
          p ∈ res → p.Key ≠ [] := by
  intro n
  induction n with
  | zero =>
    intro node hsz
    exfalso
    cases node with
    | mk v b l ch =>
      simp only [MMCMapINode.mk.sizeOf_spec] at hsz
      omega
  | succ n ihn =>
    intro node hsz minV sIdx eIdx lvl res p h hp
    cases node with
    | mk v bm leaf ch =>
      have IH : ∀ c ∈ ch, ∀ minV2 s2 e2 lvl2 res2 p2,
          rangeRecursivePositional c minV2 s2 e2 lvl2 = .ok res2 → p2 ∈ res2 →
            p2.Key ≠ [] := by
        intro c hc
        have hlt : sizeOf c < sizeOf (MMCMapINode.mk v bm leaf ch) :=
          sizeOf_mem_children hc v bm leaf
        exact ihn c (by omega)
      rw [rangeRecursivePositional] at h
      split_ifs at h
      · cases hloop : rangePositionalLoop ch 0 sIdx eIdx minV lvl with
        | error e2 =>
          rw [hloop] at h
          cases h
        | ok kvs =>
          rw [hloop] at h
          cases h
          rcases List.mem_append.mp hp with hin | hin
          · rcases List.mem_singleton.mp hin with rfl
            rename_i hbounds hemit
            exact hemit.2.1
          · exact rangePositionalLoop_keys ch IH 0 sIdx eIdx minV lvl
              kvs p hloop hin
      · cases hloop : rangePositionalLoop ch 0 sIdx eIdx minV lvl with
        | error e2 =>
          rw [hloop] at h
          cases h
        | ok kvs =>
          rw [hloop] at h
          cases h
          rw [List.nil_append] at hp
          exact rangePositionalLoop_keys ch IH 0 sIdx eIdx minV lvl
            kvs p hloop hp

/-- C9 (counterexample): a pair inserted under the empty key is attached to
the root's leaf (value retained), but a subsequent `Get` of the empty key
returns `none`, not the pair — the empty-keyed attachment is treated by
`Get` as absence. -/
theorem c9_counterexample :
    (MMCMap.Put exampleState [] [5]).2.1 = true ∧
    (MMCMap.Put exampleState [] [5]).1.root.Leaf.Key = [] ∧
    (MMCMap.Put exampleState [] [5]).1.root.Leaf.Value = [5] ∧
    MMCMap.Get (MMCMap.Put exampleState [] [5]).1 [] = none := by
  decide

/-- C9 (amended): a pair inserted under the empty key by a successful `Put`
is attached to the root node's leaf, but a subsequent `Get` of the empty
key returns `none` (the empty-keyed attachment counts as absence), and the
pair is never returned by any positional `Range` call: every pair such a
scan returns has a nonempty key. -/
theorem c9_empty_key_pair (st : MMCMap) (value : List Nat)
    (hsucc : (MMCMap.Put st [] value).2.1 = true) :
    (MMCMap.Put st [] value).1.root.Leaf.Key = [] ∧
    (MMCMap.Put st [] value).1.root.Leaf.Value = value ∧
    MMCMap.Get (MMCMap.Put st [] value).1 [] = none ∧
    ∀ (st2 : MMCMap) (sk ek : List Nat) (mv : Option Nat)
      (res : List KeyValuePair),
      MMCMap.RangeByPosition st2 sk ek mv = .ok res →
        ∀ p ∈ res, p.Key ≠ [] := by
  have hroot : (MMCMap.Put st [] value).1.root = putPath st [] value :=
    (exclusiveWriteMmap_ok st (putPath st [] value) hsucc).1
  have hput : putPath st [] value =
      MMCMapINode.mk ((st.root.Version + 1) % u64Mod) st.root.Bitmap
        (newLeafNode [] value ((st.root.Version + 1) % u64Mod))
        st.root.Children := by
    rw [putPath, putRecursive, List.drop_zero, putRecursiveWork]
    rw [if_neg (fun hcon => hcon.1 hcon.2)]
    rfl
  refine ⟨?_, ?_, ?_, ?_⟩
  · rw [hroot, hput]
    rfl
  · rw [hroot, hput]
    rfl
  · rw [MMCMap.Get, hroot, hput, getRecursive, List.drop_zero,
      getRecursiveWork]
    rw [if_neg (fun hcon => hcon.1 rfl)]
  · intro st2 sk ek mv res h p hp
    rw [MMCMap.RangeByPosition] at h
    exact rangeRecursivePositional_keys (sizeOf st2.root) st2.root
      (Nat.le_refl _) (mv.getD 0) _ _ 0 res p h hp

/-- C9 (witness): concrete instance — the empty-key pair is attached, `Get`
returns `none`, and a concrete positional range scan returns only
nonempty keys. -/
theorem c9_witness :
    (MMCMap.Put exampleState [] [5]).1.root.Leaf.Key = [] ∧
    (MMCMap.Put exampleState [] [5]).1.root.Leaf.Value = [5] ∧
    MMCMap.Get (MMCMap.Put exampleState [] [5]).1 [] = none ∧
    (⟨1, [97], [1]⟩ : KeyValuePair).Key ≠ [] := by
  obtain ⟨h1, h2, h3, h4⟩ := c9_empty_key_pair exampleState [5] (by decide)
  refine ⟨h1, h2, h3, ?_⟩
  exact h4 (MMCMap.Put (MMCMap.Put exampleState [97] [1]).1 [98, 99] [2]).1
    [97] [99] none [⟨1, [97], [1]⟩, ⟨2, [98, 99], [2]⟩] (by decide)
    ⟨1, [97], [1]⟩ (by decide)

/-- C10: reading a node from the mapped region is total at the public
interface: the readers return either a node or an error value.  An offset
whose 8-byte `EndOffset` header slice lies outside the mapped region, or
whose decoded body slice `mMap[startOffset : endOffset + 1]` lies outside
the region, yields the `recover`ed read error rather than a crash, for
both `ReadLNodeFromMemMap` and `ReadINodeFromMemMap`. -/
theorem c10_read_out_of_range (mMap : List Nat) (startOffset : Nat) :
    (mMap.length < startOffset + NodeEndOffsetIdx + OffsetSize →
      ReadLNodeFromMemMap mMap startOffset = .error readNodeErr ∧
      ReadINodeFromMemMap mMap startOffset = .error readNodeErr) ∧
    (∀ endOffset,
      deserializeLittleEndian
        ((mMap.drop (startOffset + NodeEndOffsetIdx)).take OffsetSize) =
          endOffset →
      startOffset + NodeEndOffsetIdx + OffsetSize ≤ mMap.length →
      (mMap.length < endOffset + 1 ∨ endOffset + 1 < startOffset) →
      ReadLNodeFromMemMap mMap startOffset = .error readNodeErr ∧
      ReadINodeFromMemMap mMap startOffset = .error readNodeErr) := by
  constructor
  · intro hshort
    have hnone : goSlice mMap (startOffset + NodeEndOffsetIdx)
        (startOffset + NodeEndOffsetIdx + OffsetSize) = none := by
      rw [goSlice, if_neg]
      intro hcon
      omega
    constructor
    · rw [ReadLNodeFromMemMap, hnone]
    · rw [ReadINodeFromMemMap, hnone]
  · intro endOffset hdec hfits hbad
    have hheader : goSlice mMap (startOffset + NodeEndOffsetIdx)
        (startOffset + NodeEndOffsetIdx + OffsetSize) =
        some ((mMap.drop (startOffset + NodeEndOffsetIdx)).take OffsetSize) := by
      rw [goSlice, if_pos ⟨by omega, hfits⟩, Nat.add_sub_cancel_left]
    have hlen8 : ((mMap.drop (startOffset + NodeEndOffsetIdx)).take
        OffsetSize).length = 8 := by
      rw [List.length_take, List.length_drop]
      simp only [NodeEndOffsetIdx, OffsetSize] at hfits ⊢
      omega
    have hdecode : deserializeUint64
        ((mMap.drop (startOffset + NodeEndOffsetIdx)).take OffsetSize) =
        .ok endOffset := by
      rw [deserializeUint64, if_pos hlen8, hdec]
    have hbody : goSlice mMap startOffset (endOffset + 1) = none := by
      rw [goSlice, if_neg]
      intro hcon
      omega
    constructor
    · rw [ReadLNodeFromMemMap, hheader]
      dsimp only
      rw [hdecode]
      dsimp only
      rw [hbody]
    · rw [ReadINodeFromMemMap, hheader]
      dsimp only
      rw [hdecode]
      dsimp only
      rw [hbody]

/-- C10 (witness): concrete out-of-range reads on an empty mapping and a
body overrun on a small mapping both yield the error value. -/
theorem c10_witness :
    (ReadLNodeFromMemMap [] 0 = .error readNodeErr ∧
      ReadINodeFromMemMap [] 0 = .error readNodeErr) ∧
    (ReadLNodeFromMemMap (List.replicate 24 255) 0 = .error readNodeErr ∧
      ReadINodeFromMemMap (List.replicate 24 255) 0 = .error readNodeErr) :=
  ⟨(c10_read_out_of_range [] 0).1 (by decide),
   (c10_read_out_of_range (List.replicate 24 255) 0).2
     18446744073709551615 (by decide) (by decide) (by decide)⟩
